import Mathlib

/-!
Verification of the KamaCache benchmark driver (src/testAllCachePolicy.cpp)
against its natural-language specification.

The driver code under src/ is embedded shallowly below.  The cache policy
implementations themselves (KLruCache, KLfuCache, KArcCache) are included
only through headers and are not part of src/; where a claim is about them
they are modelled from the specification (sections 4.3, 4.6, 4.8), and the
definitions say so in their doc comments.

List orientation convention for all recency lists in the models: the head of
the list is the LRU end (oldest), the tail of the list is the MRU end
(newest).  "push to MRU" is appending a singleton, "evict the LRU" is
dropping the head.
-/

/-! ### Driver configuration model (testAllCachePolicy.cpp, classes CacheTest and HotDataAccessTest) -/

/-- Clamping performed by the ratio setters, e.g. `setHotRatio` (lines 269-273):
`if (ratio < 0) ratio = 0; if (ratio > 100) ratio = 100;`. -/
def clamp100 (x : Int) : Int :=
  if x < 0 then 0 else if 100 < x then 100 else x

/-- Configuration fields of `HotDataAccessTest`: `config.capacity` and
`config.operations` inherited from `CacheTest::TestConfig`, plus the three
hotspot parameters.  Fields are `Int`, matching the C++ `int` fields. -/
structure HotState where
  capacity : Int
  operations : Int
  hotKeys : Int
  coldKeys : Int
  hotRatio : Int
deriving DecidableEq, Repr

/-- Default-constructed `HotDataAccessTest`: `TestConfig()` (line 46) gives
`capacity = 50`, `operations = 100000`; the constructor (lines 255-259) gives
`hotKeys = 20`, `coldKeys = 5000`, `hotRatio = 70`. -/
def defaultHotState : HotState :=
  ⟨50, 100000, 20, 5000, 70⟩

/-- Model of `CacheTest::setCapacity` restricted to the configuration field. -/
def HotState.setCapacity (s : HotState) (c : Int) : HotState :=
  { s with capacity := c }

/-- Model of `CacheTest::setOperations` (lines 126-128). -/
def HotState.setOperations (s : HotState) (n : Int) : HotState :=
  { s with operations := n }

/-- Model of `HotDataAccessTest::setHotKeys` (lines 261-263). -/
def HotState.setHotKeys (s : HotState) (n : Int) : HotState :=
  { s with hotKeys := n }

/-- Model of `HotDataAccessTest::setColdKeys` (lines 265-267). -/
def HotState.setColdKeys (s : HotState) (n : Int) : HotState :=
  { s with coldKeys := n }

/-- Model of `HotDataAccessTest::setHotRatio` (lines 269-273), which clamps its
argument to [0, 100] before storing it. -/
def HotState.setHotRatio (s : HotState) (r : Int) : HotState :=
  { s with hotRatio := clamp100 r }

/-- The configuration `main` (lines 534-539) applies to the hotspot test:
`setCapacity(50); setOperations(200000); setHotKeys(20); setColdKeys(5000);
setHotRatio(70)`. -/
def mainHotState : HotState :=
  ((((defaultHotState.setCapacity 50).setOperations 200000).setHotKeys
      20).setColdKeys 5000).setHotRatio 70

/-! ### Hotspot key generation (HotDataAccessTest::runTestForCacheType) -/

/-- Key generated at operation index `op` in `HotDataAccessTest`'s put phase
(lines 215-221) and get phase (lines 230-236), which use the same formula:
`if (op % 100 < hotRatio) key = gen() % hotKeys; else key = hotKeys + (gen() % coldKeys)`.
The value drawn from the random generator at this call site is passed as `r`. -/
def hotKeyAt (hotKeys coldKeys hotRatio : Nat) (r op : Nat) : Nat :=
  if op % 100 < hotRatio then r % hotKeys else hotKeys + r % coldKeys

/-- Fill-phase put trace of `HotDataAccessTest` (lines 215-226): operation `op`
puts the generated key with value `"value" + std::to_string(key)`.  The random
draw consumed at operation `op` is `rand op`. -/
def hotFillPuts (hotKeys coldKeys hotRatio : Nat) (rand : Nat → Nat) (n : Nat) :
    List (Nat × String) :=
  (List.range n).map (fun op =>
    ((hotKeyAt hotKeys coldKeys hotRatio (rand op) op),
      "value" ++ toString (hotKeyAt hotKeys coldKeys hotRatio (rand op) op)))

/-! ### Access-phase hit/operation counters

All three test classes run the same counter discipline in their access loops
(HotDataAccessTest lines 230-245, LoopPatternTest lines 306-327,
WorkloadShiftTest lines 400-454): after resetting both counters to zero, each
iteration executes `operations[type]++` and then `hits[type]++` exactly when
`cache->get(key, result)` returned true.  The cache's reply at iteration `i`
is abstracted as the oracle `hit i`. -/

/-- One access-loop iteration's effect on the pair (operation counter, hit
counter). -/
def hitStep (hit : Nat → Bool) (st : Nat × Nat) (i : Nat) : Nat × Nat :=
  (st.1 + 1, if hit i then st.2 + 1 else st.2)

/-- Counter state after an access phase of `n` iterations, starting from the
reset state `(0, 0)`. -/
def accessTally (hit : Nat → Bool) (n : Nat) : Nat × Nat :=
  (List.range n).foldl (hitStep hit) (0, 0)

theorem accessTally_succ (hit : Nat → Bool) (n : Nat) :
    accessTally hit (n + 1) = hitStep hit (accessTally hit n) n := by
  unfold accessTally
  rw [List.range_succ, List.foldl_append]
  rfl

/-! ### Claim theorems C1-C3 -/

/-- Claim C1 (counterexample): the claim states that the values `main` sets on
the hotspot test are the same values the class constructor uses as defaults,
but the default operation count is 100000 (TestConfig, line 46) while `main`
sets 200000 (line 536). -/
theorem hotTest_default_operations_mismatch :
    defaultHotState.operations = 100000 ∧ mainHotState.operations = 200000 ∧
      (100000 : Int) ≠ 200000 :=
  ⟨rfl, rfl, by decide⟩

/-- Claim C1 (amended): `main` sets the hotspot test to capacity 50,
200000 operations, 20 hot keys, 5000 cold keys and a 70% hot-access ratio
(`setHotRatio` clamps, but 70 is already in range); capacity, hot keys,
cold keys and hot ratio coincide with the constructor defaults, while the
default operation count is 100000, not 200000. -/
theorem hotTest_main_configuration :
    mainHotState = ⟨50, 200000, 20, 5000, 70⟩ ∧
      defaultHotState.capacity = 50 ∧
      defaultHotState.hotKeys = 20 ∧
      defaultHotState.coldKeys = 5000 ∧
      defaultHotState.hotRatio = 70 ∧
      defaultHotState.operations = 100000 :=
  ⟨by decide, rfl, rfl, rfl, rfl, rfl⟩

/-- Claim C2: in `HotDataAccessTest::runTestForCacheType`, in both the put and
the get phase (both of which generate keys by `hotKeyAt`), an operation with
`op % 100 < hotRatio` yields a key in `[0, hotKeys)` and any other operation a
key in `[hotKeys, hotKeys + coldKeys)`; the two ranges are disjoint, and in
every aligned block of 100 consecutive operations exactly `hotRatio` of them
access the hot range. -/
theorem hotKey_phase_ranges (hotKeys coldKeys hotRatio : Nat) (rand : Nat → Nat)
    (hh : 0 < hotKeys) (hc : 0 < coldKeys) (hr : hotRatio ≤ 100) :
    (∀ op, (op % 100 < hotRatio →
        hotKeyAt hotKeys coldKeys hotRatio (rand op) op < hotKeys) ∧
      (hotRatio ≤ op % 100 →
        hotKeys ≤ hotKeyAt hotKeys coldKeys hotRatio (rand op) op ∧
          hotKeyAt hotKeys coldKeys hotRatio (rand op) op < hotKeys + coldKeys)) ∧
    (∀ b, ((Finset.range 100).filter
        (fun i => hotKeyAt hotKeys coldKeys hotRatio (rand (100 * b + i)) (100 * b + i)
          < hotKeys)).card = hotRatio) := by
  have hkey : ∀ op, (hotKeyAt hotKeys coldKeys hotRatio (rand op) op < hotKeys)
      ↔ op % 100 < hotRatio := by
    intro op
    unfold hotKeyAt
    by_cases h : op % 100 < hotRatio
    · simp [h, Nat.mod_lt _ hh]
    · simp [h]
  constructor
  · intro op
    constructor
    · intro h
      exact (hkey op).mpr h
    · intro h
      have hnot : ¬ op % 100 < hotRatio := not_lt.mpr h
      unfold hotKeyAt
      simp only [hnot, if_false]
      exact ⟨Nat.le_add_right _ _, Nat.add_lt_add_left (Nat.mod_lt _ hc) _⟩
  · intro b
    have hfe : ((Finset.range 100).filter
        (fun i => hotKeyAt hotKeys coldKeys hotRatio (rand (100 * b + i)) (100 * b + i)
          < hotKeys)) = (Finset.range 100).filter (fun i => i < hotRatio) := by
      apply Finset.filter_congr
      intro i hi
      have hi100 : i < 100 := Finset.mem_range.mp hi
      have hmod : (100 * b + i) % 100 = i := by
        rw [Nat.mul_add_mod]
        exact Nat.mod_eq_of_lt hi100
      rw [hkey (100 * b + i), hmod]
    rw [hfe]
    have : (Finset.range 100).filter (fun i => i < hotRatio) = Finset.range hotRatio := by
      apply Finset.ext
      intro i
      simp only [Finset.mem_filter, Finset.mem_range]
      constructor
      · intro h
        exact h.2
      · intro h
        exact ⟨lt_of_lt_of_le h hr, h⟩
    rw [this, Finset.card_range]

/-- Claim C2 (witness): the E6 configuration 20 hot keys, 5000 cold keys,
70% hot ratio satisfies the hypotheses, with an arbitrary concrete draw
stream. -/
theorem hotKey_phase_ranges_witness :
    0 < 20 ∧ 0 < 5000 ∧ 70 ≤ 100 ∧
    ((∀ op, (op % 100 < 70 →
        hotKeyAt 20 5000 70 ((fun i => i * 37 + 11) op) op < 20) ∧
      (70 ≤ op % 100 →
        20 ≤ hotKeyAt 20 5000 70 ((fun i => i * 37 + 11) op) op ∧
          hotKeyAt 20 5000 70 ((fun i => i * 37 + 11) op) op < 20 + 5000)) ∧
    (∀ b, ((Finset.range 100).filter
        (fun i => hotKeyAt 20 5000 70 ((fun i => i * 37 + 11) (100 * b + i)) (100 * b + i)
          < 20)).card = 70)) :=
  ⟨by decide, by decide, by decide,
    hotKey_phase_ranges 20 5000 70 (fun i => i * 37 + 11)
      (by decide) (by decide) (by decide)⟩

/-- Claim C3: in every test class's access phase, each iteration increments the
operation counter by exactly one and the hit counter by one exactly when the
cache reported a hit, so after the loop the operation counter equals
`config.operations` and the hit counter is at most the operation counter. -/
theorem accessTally_counts (hit : Nat → Bool) :
    (∀ st i, hitStep hit st i = (st.1 + 1, if hit i then st.2 + 1 else st.2)) ∧
    (∀ n, (accessTally hit n).1 = n ∧ (accessTally hit n).2 ≤ n) := by
  constructor
  · intro st i
    rfl
  · intro n
    induction n with
    | zero => exact ⟨rfl, Nat.le_refl 0⟩
    | succ m ih =>
      rw [accessTally_succ]
      unfold hitStep
      refine ⟨by rw [ih.1], ?_⟩
      by_cases h : hit m
      · simp only [h, if_true]
        exact Nat.succ_le_succ ih.2
      · simp only [h, if_false]
        exact Nat.le_succ_of_le ih.2

/-! ### Abstract cache interface and the no-phantoms guarantee

The test driver talks to the caches only through the abstract interface
`KICachePolicy` (`cache->put`, `cache->get`); the implementations are outside
src/.  For claims that combine the driver with the spec's "no phantoms"
guarantee (spec section 8, universal invariant 4), the cache's read path is
abstracted as a function from the put history to an optional value, and the
guarantee is the hypothesis `NoPhantoms`. -/

/-- Modelled from the spec: universal invariant 4, "no phantoms" — a `get`
never returns a value that was not passed to some earlier `put` of the same
key.  `getS h k` is the value the cache returns for key `k` after the put
history `h`. -/
def NoPhantoms (getS : List (Nat × String) → Nat → Option String) : Prop :=
  ∀ h k v, getS h k = some v → (k, v) ∈ h

/-- Association-list lookup: one concrete cache read path satisfying
`NoPhantoms`, used by the witnesses. -/
def assocGet (h : List (Nat × String)) (k : Nat) : Option String :=
  (h.find? (fun e => e.1 == k)).map (fun e => e.2)

theorem assocGet_noPhantoms : NoPhantoms assocGet := by
  intro h k v hv
  unfold assocGet at hv
  cases hfind : h.find? (fun e => e.1 == k) with
  | none => rw [hfind] at hv; simp at hv
  | some e =>
    rw [hfind] at hv
    have hmem : e ∈ h := List.mem_of_find?_eq_some hfind
    have hk : e.1 = k := by simpa using List.find?_some hfind
    have hv2 : e.2 = v := by simpa using hv
    have : (k, v) = e := by
      obtain ⟨a, b⟩ := e
      simp only at hk hv2
      rw [hk, hv2]
    rw [this]
    exact hmem

/-! ### Loop pattern test (LoopPatternTest::runTestForCacheType) -/

/-- Fill-phase put trace of `LoopPatternTest` (lines 295-302): key `k` gets
value `"loop" + std::to_string(k)` for `k = 0 .. loopSize-1`. -/
def loopFillPuts (loopSize : Nat) : List (Nat × String) :=
  (List.range loopSize).map (fun k => (k, "loop" ++ toString k))

/-- Scan cursor `current_pos` of `LoopPatternTest`'s access phase (lines
306-313): it starts at 0 and advances by one modulo `loopSize` exactly on the
sequential-scan iterations (`op % 100 < sequentialRatio`). -/
def loopScanPos (loopSize seqRat : Nat) : Nat → Nat
  | 0 => 0
  | op + 1 =>
    if op % 100 < seqRat then (loopScanPos loopSize seqRat op + 1) % loopSize
    else loopScanPos loopSize seqRat op

/-- Key read at operation `op` of `LoopPatternTest`'s access phase (lines
307-318); `rand op` is the random draw consumed at that operation. -/
def loopKey (loopSize seqRat randRat : Nat) (rand : Nat → Nat) (op : Nat) : Nat :=
  if op % 100 < seqRat then loopScanPos loopSize seqRat op
  else if op % 100 < seqRat + randRat then rand op % loopSize
  else loopSize + rand op % loopSize

theorem loopScanPos_succ (loopSize seqRat op : Nat) :
    loopScanPos loopSize seqRat (op + 1) =
      if op % 100 < seqRat then (loopScanPos loopSize seqRat op + 1) % loopSize
      else loopScanPos loopSize seqRat op :=
  rfl

theorem loopScanPos_lt (loopSize seqRat : Nat) (h : 0 < loopSize) :
    ∀ op, loopScanPos loopSize seqRat op < loopSize := by
  intro op
  induction op with
  | zero => exact h
  | succ m ih =>
    rw [loopScanPos_succ]
    by_cases hc : m % 100 < seqRat
    · simp only [hc, if_true]
      exact Nat.mod_lt _ h
    · simp only [hc, if_false]
      exact ih

/-- Claim C5: `LoopPatternTest` fills exactly the keys `0 .. loopSize-1`; in
the access phase a sequential operation reads the scan cursor and advances it
by one modulo `loopSize`, a random operation reads a key in `[0, loopSize)`,
and every remaining operation reads a key in `[loopSize, 2*loopSize)` — a
range never put by this test, so under the spec's no-phantoms guarantee those
gets miss. -/
theorem loopPattern_access_classification (loopSize seqRat randRat : Nat)
    (rand : Nat → Nat) (getS : List (Nat × String) → Nat → Option String)
    (hls : 0 < loopSize) (hnp : NoPhantoms getS) :
    (loopFillPuts loopSize).map Prod.fst = List.range loopSize ∧
    (∀ op, loopScanPos loopSize seqRat op < loopSize) ∧
    (∀ op, op % 100 < seqRat →
      loopKey loopSize seqRat randRat rand op = loopScanPos loopSize seqRat op ∧
        loopScanPos loopSize seqRat (op + 1) =
          (loopScanPos loopSize seqRat op + 1) % loopSize) ∧
    (∀ op, seqRat ≤ op % 100 → op % 100 < seqRat + randRat →
      loopKey loopSize seqRat randRat rand op < loopSize ∧
        loopScanPos loopSize seqRat (op + 1) = loopScanPos loopSize seqRat op) ∧
    (∀ op, seqRat + randRat ≤ op % 100 →
      loopSize ≤ loopKey loopSize seqRat randRat rand op ∧
        loopKey loopSize seqRat randRat rand op < 2 * loopSize ∧
        getS (loopFillPuts loopSize) (loopKey loopSize seqRat randRat rand op) = none) := by
  refine ⟨?_, loopScanPos_lt loopSize seqRat hls, ?_, ?_, ?_⟩
  · unfold loopFillPuts
    rw [List.map_map]
    show List.map (fun k => k) (List.range loopSize) = List.range loopSize
    exact List.map_id' (List.range loopSize)
  · intro op hseq
    refine ⟨?_, ?_⟩
    · unfold loopKey
      simp only [hseq, if_true]
    · rw [loopScanPos_succ]
      simp only [hseq, if_true]
  · intro op h1 h2
    have hnseq : ¬ op % 100 < seqRat := not_lt.mpr h1
    refine ⟨?_, ?_⟩
    · unfold loopKey
      simp only [hnseq, if_false, h2, if_true]
      exact Nat.mod_lt _ hls
    · rw [loopScanPos_succ]
      simp only [hnseq, if_false]
  · intro op hout
    have hnseq : ¬ op % 100 < seqRat := by
      apply not_lt.mpr
      exact le_trans (Nat.le_add_right _ _) hout
    have hnrand : ¬ op % 100 < seqRat + randRat := not_lt.mpr hout
    have hkeyval : loopKey loopSize seqRat randRat rand op =
        loopSize + rand op % loopSize := by
      unfold loopKey
      simp only [hnseq, if_false, hnrand]
    refine ⟨?_, ?_, ?_⟩
    · rw [hkeyval]; exact Nat.le_add_right _ _
    · rw [hkeyval, Nat.two_mul]
      exact Nat.add_lt_add_left (Nat.mod_lt _ hls) _
    · cases hget : getS (loopFillPuts loopSize) (loopKey loopSize seqRat randRat rand op) with
      | none => rfl
      | some v =>
        exfalso
        have hmem := hnp _ _ _ hget
        unfold loopFillPuts at hmem
        rw [List.mem_map] at hmem
        obtain ⟨k, hkr, hke⟩ := hmem
        have hklt : k < loopSize := List.mem_range.mp hkr
        have hkey : k = loopKey loopSize seqRat randRat rand op := congrArg Prod.fst hke
        rw [hkeyval] at hkey
        omega

/-- Claim C5 (witness): the configuration of `main` for the loop test
(loopSize 500, ratios 60/30) with the association-list cache. -/
theorem loopPattern_access_classification_witness :
    0 < 500 ∧ NoPhantoms assocGet ∧
    ((loopFillPuts 500).map Prod.fst = List.range 500 ∧
    (∀ op, loopScanPos 500 60 op < 500) ∧
    (∀ op, op % 100 < 60 →
      loopKey 500 60 30 (fun i => i * 7 + 3) op = loopScanPos 500 60 op ∧
        loopScanPos 500 60 (op + 1) = (loopScanPos 500 60 op + 1) % 500) ∧
    (∀ op, 60 ≤ op % 100 → op % 100 < 60 + 30 →
      loopKey 500 60 30 (fun i => i * 7 + 3) op < 500 ∧
        loopScanPos 500 60 (op + 1) = loopScanPos 500 60 op) ∧
    (∀ op, 60 + 30 ≤ op % 100 →
      500 ≤ loopKey 500 60 30 (fun i => i * 7 + 3) op ∧
        loopKey 500 60 30 (fun i => i * 7 + 3) op < 2 * 500 ∧
        assocGet (loopFillPuts 500) (loopKey 500 60 30 (fun i => i * 7 + 3) op) = none)) :=
  ⟨by decide, assocGet_noPhantoms,
    loopPattern_access_classification 500 60 30 (fun i => i * 7 + 3) assocGet
      (by decide) assocGet_noPhantoms⟩

/-- Claim C7: every fill-phase put of `HotDataAccessTest` (lines 213-225) puts
the value `"value" + std::to_string(key)`, a function of the key alone; hence
under the spec's no-phantoms guarantee every successful get over that history
returns exactly `"value" + std::to_string(key)`. -/
theorem hotFill_values_functional (hotKeys coldKeys hotRatio n : Nat)
    (rand : Nat → Nat) (getS : List (Nat × String) → Nat → Option String)
    (hnp : NoPhantoms getS) :
    (∀ e ∈ hotFillPuts hotKeys coldKeys hotRatio rand n,
      e.2 = "value" ++ toString e.1) ∧
    (∀ k v, getS (hotFillPuts hotKeys coldKeys hotRatio rand n) k = some v →
      v = "value" ++ toString k) := by
  have hall : ∀ e ∈ hotFillPuts hotKeys coldKeys hotRatio rand n,
      e.2 = "value" ++ toString e.1 := by
    intro e he
    unfold hotFillPuts at he
    rw [List.mem_map] at he
    obtain ⟨op, _, hoe⟩ := he
    rw [← hoe]
  refine ⟨hall, ?_⟩
  intro k v hget
  have hmem := hnp _ _ _ hget
  have := hall (k, v) hmem
  simpa using this

/-- Claim C7 (witness): one fill operation with the E6 parameters and the
association-list cache; the hypothesis `NoPhantoms assocGet` is discharged by
`assocGet_noPhantoms`. -/
theorem hotFill_values_functional_witness :
    NoPhantoms assocGet ∧
    ((∀ e ∈ hotFillPuts 20 5000 70 (fun i => i + 1) 3,
      e.2 = "value" ++ toString e.1) ∧
    (∀ k v, assocGet (hotFillPuts 20 5000 70 (fun i => i + 1) 3) k = some v →
      v = "value" ++ toString k)) :=
  ⟨assocGet_noPhantoms,
    hotFill_values_functional 20 5000 70 3 (fun i => i + 1) assocGet assocGet_noPhantoms⟩

/-! ### Workload shift test (WorkloadShiftTest::runTestForCacheType) -/

/-- Key drawn in the mixed-access phase (lines 426-438, `phase % 5 == 4`):
`r = gen() % 100`; with weight 30 a key in `[0, 5)`, with weight 30 a key in
`[5, 100)`, with weight 40 a key in `[100, initialDataSize)`.  `d` is the
first random draw (the weight selector), `r2` the second. -/
def wsMixKey (initialDataSize d r2 : Nat) : Nat :=
  if d % 100 < 30 then r2 % 5
  else if d % 100 < 60 then 5 + r2 % 95
  else 100 + r2 % (initialDataSize - 100)

/-- Key accessed at operation `op` of `WorkloadShiftTest`'s multi-phase loop
(lines 400-439): `phase = op / phaseLength` and the pattern is selected by
`phase % 5`.  `r1 op` and `r2 op` are the first and second random draws
consumed at operation `op`. -/
def wsKey (initialDataSize phaseLength : Nat) (r1 r2 : Nat → Nat) (op : Nat) : Nat :=
  if (op / phaseLength) % 5 = 0 then r1 op % 5
  else if (op / phaseLength) % 5 = 1 then r1 op % initialDataSize
  else if (op / phaseLength) % 5 = 2 then (op - (op / phaseLength) * phaseLength) % 100
  else if (op / phaseLength) % 5 = 3 then ((op / 1000) % 10) * 20 + r1 op % 20
  else wsMixKey initialDataSize (r1 op) (r2 op)

theorem wsKey_phase0 (initialDataSize pl : Nat) (r1 r2 : Nat → Nat) (op : Nat)
    (h : (op / pl) % 5 = 0) :
    wsKey initialDataSize pl r1 r2 op = r1 op % 5 := by
  unfold wsKey
  rw [if_pos h]

theorem wsKey_phase1 (initialDataSize pl : Nat) (r1 r2 : Nat → Nat) (op : Nat)
    (h : (op / pl) % 5 = 1) :
    wsKey initialDataSize pl r1 r2 op = r1 op % initialDataSize := by
  unfold wsKey
  rw [if_neg (by omega), if_pos h]

theorem wsKey_phase2 (initialDataSize pl : Nat) (r1 r2 : Nat → Nat) (op : Nat)
    (h : (op / pl) % 5 = 2) :
    wsKey initialDataSize pl r1 r2 op = (op - op / pl * pl) % 100 := by
  unfold wsKey
  rw [if_neg (by omega), if_neg (by omega), if_pos h]

theorem wsKey_phase3 (initialDataSize pl : Nat) (r1 r2 : Nat → Nat) (op : Nat)
    (h : (op / pl) % 5 = 3) :
    wsKey initialDataSize pl r1 r2 op = ((op / 1000) % 10) * 20 + r1 op % 20 := by
  unfold wsKey
  rw [if_neg (by omega), if_neg (by omega), if_neg (by omega), if_pos h]

theorem wsKey_phase4 (initialDataSize pl : Nat) (r1 r2 : Nat → Nat) (op : Nat)
    (h : (op / pl) % 5 = 4) :
    wsKey initialDataSize pl r1 r2 op = wsMixKey initialDataSize (r1 op) (r2 op) := by
  unfold wsKey
  rw [if_neg (by omega), if_neg (by omega), if_neg (by omega), if_neg (by omega)]

/-- Claim C6: with `phaseLength = operations / phases`, the `operations`
accesses split into `phases` consecutive blocks of that length, and the key
pattern of each block is selected by `phase % 5`: phase 0 draws from `[0, 5)`,
phase 1 from `[0, initialDataSize)`, phase 2 scans sequentially modulo 100,
phase 3 draws from the 20-key window `[20*w, 20*w + 20)` with
`w = (op / 1000) % 10` moving every 1000 operations, and phase 4 mixes the
ranges `[0,5)`, `[5,100)`, `[100, initialDataSize)` with 30/30/40 weights on
the selector draw. -/
theorem workloadShift_phase_patterns (initialDataSize operations phases : Nat)
    (r1 r2 : Nat → Nat) (hdvd : phases ∣ operations)
    (hids : 100 < initialDataSize) :
    (operations / phases * phases = operations ∧
      ∀ op, op < operations →
        op / (operations / phases) < phases ∧
        (operations / phases) * (op / (operations / phases)) ≤ op ∧
        op < (operations / phases) * (op / (operations / phases)) + operations / phases) ∧
    (∀ pl op, (op / pl) % 5 = 0 → wsKey initialDataSize pl r1 r2 op = r1 op % 5 ∧
      wsKey initialDataSize pl r1 r2 op < 5) ∧
    (∀ pl op, (op / pl) % 5 = 1 → wsKey initialDataSize pl r1 r2 op = r1 op % initialDataSize ∧
      wsKey initialDataSize pl r1 r2 op < initialDataSize) ∧
    (∀ pl op, (op / pl) % 5 = 2 → wsKey initialDataSize pl r1 r2 op = (op % pl) % 100) ∧
    (∀ pl op, (op / pl) % 5 = 3 →
      ((op / 1000) % 10) * 20 ≤ wsKey initialDataSize pl r1 r2 op ∧
      wsKey initialDataSize pl r1 r2 op < ((op / 1000) % 10) * 20 + 20) ∧
    (∀ pl op, (op / pl) % 5 = 4 →
      (r1 op % 100 < 30 → wsKey initialDataSize pl r1 r2 op < 5) ∧
      (30 ≤ r1 op % 100 → r1 op % 100 < 60 →
        5 ≤ wsKey initialDataSize pl r1 r2 op ∧ wsKey initialDataSize pl r1 r2 op < 100) ∧
      (60 ≤ r1 op % 100 →
        100 ≤ wsKey initialDataSize pl r1 r2 op ∧
          wsKey initialDataSize pl r1 r2 op < initialDataSize)) ∧
    (∀ rv, ((Finset.range 100).filter
        (fun d => wsMixKey initialDataSize d rv < 5)).card = 30 ∧
      ((Finset.range 100).filter
        (fun d => 5 ≤ wsMixKey initialDataSize d rv ∧
          wsMixKey initialDataSize d rv < 100)).card = 30 ∧
      ((Finset.range 100).filter
        (fun d => 100 ≤ wsMixKey initialDataSize d rv)).card = 40) := by
  have hmix : ∀ d rv, (d % 100 < 30 → wsMixKey initialDataSize d rv < 5) ∧
      (30 ≤ d % 100 → d % 100 < 60 →
        5 ≤ wsMixKey initialDataSize d rv ∧ wsMixKey initialDataSize d rv < 100) ∧
      (60 ≤ d % 100 →
        100 ≤ wsMixKey initialDataSize d rv ∧ wsMixKey initialDataSize d rv < initialDataSize) := by
    intro d rv
    refine ⟨?_, ?_, ?_⟩
    · intro h
      unfold wsMixKey
      simp only [h, if_true]
      exact Nat.mod_lt _ (by omega)
    · intro h1 h2
      have hn1 : ¬ d % 100 < 30 := not_lt.mpr h1
      unfold wsMixKey
      simp only [hn1, if_false, h2, if_true]
      have : rv % 95 < 95 := Nat.mod_lt _ (by omega)
      omega
    · intro h
      have hn1 : ¬ d % 100 < 30 := by omega
      have hn2 : ¬ d % 100 < 60 := not_lt.mpr h
      unfold wsMixKey
      simp only [hn1, if_false, hn2]
      have : rv % (initialDataSize - 100) < initialDataSize - 100 :=
        Nat.mod_lt _ (by omega)
      omega
  refine ⟨⟨Nat.div_mul_cancel hdvd, ?_⟩, ?_, ?_, ?_, ?_, ?_, ?_⟩
  · intro op hop
    have hprod : operations / phases * phases = operations := Nat.div_mul_cancel hdvd
    have hpl : 0 < operations / phases := by
      rcases Nat.eq_zero_or_pos (operations / phases) with h0 | h1
      · rw [h0, Nat.zero_mul] at hprod
        omega
      · exact h1
    refine ⟨?_, ?_, ?_⟩
    · rw [Nat.div_lt_iff_lt_mul hpl]
      rw [Nat.mul_comm phases (operations / phases), hprod]
      exact hop
    · exact Nat.mul_div_le op (operations / phases)
    · have h := Nat.mod_add_div op (operations / phases)
      have hm := Nat.mod_lt op hpl
      omega
  · intro pl op h
    rw [wsKey_phase0 initialDataSize pl r1 r2 op h]
    exact ⟨rfl, Nat.mod_lt _ (by omega)⟩
  · intro pl op h
    rw [wsKey_phase1 initialDataSize pl r1 r2 op h]
    exact ⟨rfl, Nat.mod_lt _ (by omega)⟩
  · intro pl op h
    rw [wsKey_phase2 initialDataSize pl r1 r2 op h]
    have hsub : op - op / pl * pl = op % pl := by
      have h1 := Nat.mod_add_div' op pl
      omega
    rw [hsub]
  · intro pl op h
    rw [wsKey_phase3 initialDataSize pl r1 r2 op h]
    have : r1 op % 20 < 20 := Nat.mod_lt _ (by omega)
    omega
  · intro pl op h
    rw [wsKey_phase4 initialDataSize pl r1 r2 op h]
    exact hmix (r1 op) (r2 op)
  · intro rv
    have hc1 : ((Finset.range 100).filter (fun d => wsMixKey initialDataSize d rv < 5)) =
        (Finset.range 100).filter (fun d => d < 30) := by
      apply Finset.filter_congr
      intro d hd
      have hd100 : d < 100 := Finset.mem_range.mp hd
      have hdm : d % 100 = d := Nat.mod_eq_of_lt hd100
      obtain ⟨m1, m2, m3⟩ := hmix d rv
      constructor
      · intro hk
        by_contra hn
        rcases Nat.lt_or_ge (d % 100) 60 with h60 | h60
        · have := m2 (by omega) h60
          omega
        · have := m3 h60
          omega
      · intro hk
        exact m1 (by omega)
    have hc2 : ((Finset.range 100).filter (fun d => 5 ≤ wsMixKey initialDataSize d rv ∧
          wsMixKey initialDataSize d rv < 100)) =
        (Finset.range 100).filter (fun d => 30 ≤ d ∧ d < 60) := by
      apply Finset.filter_congr
      intro d hd
      have hd100 : d < 100 := Finset.mem_range.mp hd
      have hdm : d % 100 = d := Nat.mod_eq_of_lt hd100
      obtain ⟨m1, m2, m3⟩ := hmix d rv
      constructor
      · intro hk
        by_contra hn
        rcases Nat.lt_or_ge d 30 with h30 | h30
        · have := m1 (by omega)
          omega
        · have := m3 (by omega)
          omega
      · intro hk
        have := m2 (by omega) (by omega)
        omega
    have hc3 : ((Finset.range 100).filter (fun d => 100 ≤ wsMixKey initialDataSize d rv)) =
        (Finset.range 100).filter (fun d => 60 ≤ d) := by
      apply Finset.filter_congr
      intro d hd
      have hd100 : d < 100 := Finset.mem_range.mp hd
      have hdm : d % 100 = d := Nat.mod_eq_of_lt hd100
      obtain ⟨m1, m2, m3⟩ := hmix d rv
      constructor
      · intro hk
        by_contra hn
        rcases Nat.lt_or_ge d 30 with h30 | h30
        · have := m1 (by omega)
          omega
        · have := m2 (by omega) (by omega)
          omega
      · intro hk
        have := m3 (by omega)
        omega
    rw [hc1, hc2, hc3]
    refine ⟨by decide, by decide, by decide⟩

/-- Claim C6 (witness): the configuration of `main` for the workload-shift
test (operations 50000, phases 5, initialDataSize 1000). -/
theorem workloadShift_phase_patterns_witness :
    (5 : Nat) ∣ 50000 ∧ 100 < 1000 ∧
    ((50000 / 5 * 5 = 50000 ∧
      ∀ op, op < 50000 →
        op / (50000 / 5) < 5 ∧
        (50000 / 5) * (op / (50000 / 5)) ≤ op ∧
        op < (50000 / 5) * (op / (50000 / 5)) + 50000 / 5) ∧
    (∀ pl op, (op / pl) % 5 = 0 →
      wsKey 1000 pl (fun i => i * 3 + 1) (fun i => i * 5 + 2) op = (fun i => i * 3 + 1) op % 5 ∧
      wsKey 1000 pl (fun i => i * 3 + 1) (fun i => i * 5 + 2) op < 5) ∧
    (∀ pl op, (op / pl) % 5 = 1 →
      wsKey 1000 pl (fun i => i * 3 + 1) (fun i => i * 5 + 2) op = (fun i => i * 3 + 1) op % 1000 ∧
      wsKey 1000 pl (fun i => i * 3 + 1) (fun i => i * 5 + 2) op < 1000) ∧
    (∀ pl op, (op / pl) % 5 = 2 →
      wsKey 1000 pl (fun i => i * 3 + 1) (fun i => i * 5 + 2) op = (op % pl) % 100) ∧
    (∀ pl op, (op / pl) % 5 = 3 →
      ((op / 1000) % 10) * 20 ≤ wsKey 1000 pl (fun i => i * 3 + 1) (fun i => i * 5 + 2) op ∧
      wsKey 1000 pl (fun i => i * 3 + 1) (fun i => i * 5 + 2) op < ((op / 1000) % 10) * 20 + 20) ∧
    (∀ pl op, (op / pl) % 5 = 4 →
      ((fun i => i * 3 + 1) op % 100 < 30 →
        wsKey 1000 pl (fun i => i * 3 + 1) (fun i => i * 5 + 2) op < 5) ∧
      (30 ≤ (fun i => i * 3 + 1) op % 100 → (fun i => i * 3 + 1) op % 100 < 60 →
        5 ≤ wsKey 1000 pl (fun i => i * 3 + 1) (fun i => i * 5 + 2) op ∧
          wsKey 1000 pl (fun i => i * 3 + 1) (fun i => i * 5 + 2) op < 100) ∧
      (60 ≤ (fun i => i * 3 + 1) op % 100 →
        100 ≤ wsKey 1000 pl (fun i => i * 3 + 1) (fun i => i * 5 + 2) op ∧
          wsKey 1000 pl (fun i => i * 3 + 1) (fun i => i * 5 + 2) op < 1000)) ∧
    (∀ rv, ((Finset.range 100).filter (fun d => wsMixKey 1000 d rv < 5)).card = 30 ∧
      ((Finset.range 100).filter
        (fun d => 5 ≤ wsMixKey 1000 d rv ∧ wsMixKey 1000 d rv < 100)).card = 30 ∧
      ((Finset.range 100).filter (fun d => 100 ≤ wsMixKey 1000 d rv)).card = 40)) :=
  ⟨by decide, by decide,
    workloadShift_phase_patterns 1000 50000 5 (fun i => i * 3 + 1) (fun i => i * 5 + 2)
      (by decide) (by decide)⟩

/-! ### Loop pattern ratio setters (LoopPatternTest, lines 338-366) -/

/-- Ratio state of `LoopPatternTest`: `sequentialRatio` and `randomRatio`
(C++ `int` fields). -/
structure LoopRatios where
  seqRatio : Int
  randRatio : Int
deriving DecidableEq, Repr

/-- Constructor state (lines 338-342): `sequentialRatio = 60`,
`randomRatio = 30`. -/
def loopRatiosStart : LoopRatios := ⟨60, 30⟩

/-- Model of `LoopPatternTest::setSequentialRatio` (lines 348-356): clamp the
argument to [0, 100], store it, and shrink `randomRatio` to `100 - value` when
the sum would exceed 100. -/
def LoopRatios.setSeq (s : LoopRatios) (x : Int) : LoopRatios :=
  if 100 < clamp100 x + s.randRatio then ⟨clamp100 x, 100 - clamp100 x⟩
  else ⟨clamp100 x, s.randRatio⟩

/-- Model of `LoopPatternTest::setRandomRatio` (lines 358-366): clamp the
argument to [0, 100], store it, and shrink `sequentialRatio` to `100 - value`
when the sum would exceed 100. -/
def LoopRatios.setRand (s : LoopRatios) (x : Int) : LoopRatios :=
  if 100 < s.seqRatio + clamp100 x then ⟨100 - clamp100 x, clamp100 x⟩
  else ⟨s.seqRatio, clamp100 x⟩

/-- The invariant claimed for the ratio pair: both ratios lie in [0, 100] and
their sum is at most 100, so the out-of-range share
`100 - seqRatio - randRatio` is non-negative. -/
def RatioInv (s : LoopRatios) : Prop :=
  0 ≤ s.seqRatio ∧ s.seqRatio ≤ 100 ∧ 0 ≤ s.randRatio ∧ s.randRatio ≤ 100 ∧
    s.seqRatio + s.randRatio ≤ 100

/-- One recorded setter call on a `LoopPatternTest`. -/
inductive RatioCall where
  | seq (x : Int)
  | rand (x : Int)

/-- Sequential application of ratio setter calls. -/
def applyRatioCalls (calls : List RatioCall) (s : LoopRatios) : LoopRatios :=
  calls.foldl
    (fun st c =>
      match c with
      | RatioCall.seq x => st.setSeq x
      | RatioCall.rand x => st.setRand x) s

theorem clamp100_mem (x : Int) : 0 ≤ clamp100 x ∧ clamp100 x ≤ 100 := by
  unfold clamp100
  split_ifs with h1 h2
  · omega
  · omega
  · omega

theorem ratioInv_setSeq (s : LoopRatios) (x : Int) (h : RatioInv s) :
    RatioInv (s.setSeq x) := by
  obtain ⟨h1, h2, h3, h4, h5⟩ := h
  have hc := clamp100_mem x
  unfold LoopRatios.setSeq RatioInv
  split_ifs with hif
  · dsimp only
    omega
  · dsimp only
    omega

theorem ratioInv_setRand (s : LoopRatios) (x : Int) (h : RatioInv s) :
    RatioInv (s.setRand x) := by
  obtain ⟨h1, h2, h3, h4, h5⟩ := h
  have hc := clamp100_mem x
  unfold LoopRatios.setRand RatioInv
  split_ifs with hif
  · dsimp only
    omega
  · dsimp only
    omega

/-- Claim C8: `LoopPatternTest` maintains `0 ≤ sequentialRatio ≤ 100`,
`0 ≤ randomRatio ≤ 100` and `sequentialRatio + randomRatio ≤ 100`: the
invariant holds for the constructor state (60 and 30), each setter preserves
it from any state satisfying it, and consequently it holds after any sequence
of setter calls starting from the constructor state. -/
theorem loopRatios_invariant_preserved :
    RatioInv loopRatiosStart ∧
    (∀ s x, RatioInv s → RatioInv (s.setSeq x) ∧ RatioInv (s.setRand x)) ∧
    (∀ calls, RatioInv (applyRatioCalls calls loopRatiosStart)) := by
  have hstep : ∀ s x, RatioInv s → RatioInv (s.setSeq x) ∧ RatioInv (s.setRand x) :=
    fun s x h => ⟨ratioInv_setSeq s x h, ratioInv_setRand s x h⟩
  have hinit : RatioInv loopRatiosStart := by
    unfold RatioInv loopRatiosStart
    dsimp only
    omega
  refine ⟨hinit, hstep, ?_⟩
  intro calls
  have hgen : ∀ (cs : List RatioCall) (s : LoopRatios), RatioInv s →
      RatioInv (applyRatioCalls cs s) := by
    intro cs
    induction cs with
    | nil => intro s h; exact h
    | cons c t ih =>
      intro s h
      cases c with
      | seq x => exact ih (s.setSeq x) (ratioInv_setSeq s x h)
      | rand x => exact ih (s.setRand x) (ratioInv_setRand s x h)
  exact hgen calls loopRatiosStart hinit

/-! ### Workload shift division safety (WorkloadShiftTest, lines 396-406, 483-485) -/

/-- Division as the C++ program performs it: division by zero is undefined
behaviour, modelled as `none`. -/
def cdiv (a b : Nat) : Option Nat :=
  if b = 0 then none else some (a / b)

/-- Modulo as the C++ program performs it: modulo by zero is undefined
behaviour, modelled as `none`. -/
def cmod (a b : Nat) : Option Nat :=
  if b = 0 then none else some (a % b)

/-- The phase-count configuration of `WorkloadShiftTest`. -/
structure WsConfig where
  initialDataSize : Nat
  phases : Nat
  putProbability : Nat
deriving DecidableEq, Repr

/-- Model of `WorkloadShiftTest::setPhases` (lines 483-485): it stores its
argument without any validation. -/
def WsConfig.setPhases (s : WsConfig) (n : Nat) : WsConfig :=
  { s with phases := n }

/-- The division/modulo obligations of `WorkloadShiftTest::runTestForCacheType`
(lines 396-406): compute `phaseLength = operations / phases`, then for every
loop iteration `op < operations` evaluate `op % phaseLength` and
`op / phaseLength`.  Returns `true` exactly when no division by zero occurs. -/
def wsRunSafe (operations phases : Nat) : Bool :=
  match cdiv operations phases with
  | none => false
  | some pl =>
    (List.range operations).all (fun op => (cmod op pl).isSome && (cdiv op pl).isSome)

/-- Claim C9 (counterexample): the claim says the run is total only under
`phases ≥ 1 ∧ operations ≥ phases`, but with `operations = 0` and `phases = 1`
the access loop runs zero iterations and no division by zero occurs even
though `operations ≥ phases` fails. -/
theorem wsRunSafe_zero_operations :
    wsRunSafe 0 1 = true ∧ ¬ (1 ≤ (0 : Nat)) :=
  ⟨by decide, by decide⟩

/-- Claim C9 (amended): `setPhases` stores its argument unvalidated, and over
non-negative parameters the run's divisions are all well defined exactly when
`phases ≥ 1` and either `operations = 0` (the loop body never executes) or
`operations ≥ phases` (so `phaseLength ≥ 1`); in particular `phases = 0`
divides by zero immediately, and `1 ≤ operations < phases` makes
`phaseLength = 0` so the first iteration's modulo and division are by zero. -/
theorem wsRunSafe_iff :
    (∀ s n, (WsConfig.setPhases s n).phases = n) ∧
    (∀ operations phases, wsRunSafe operations phases = true ↔
      (1 ≤ phases ∧ (operations = 0 ∨ phases ≤ operations))) := by
  refine ⟨fun s n => rfl, ?_⟩
  intro operations phases
  unfold wsRunSafe cdiv cmod
  rcases Nat.eq_zero_or_pos phases with hz | hpos
  · subst hz
    simp
  · have hnz : ¬ phases = 0 := by omega
    simp only [hnz, if_false]
    rcases Nat.eq_zero_or_pos operations with ho | hopos
    · subst ho
      simp only [List.range_zero, List.all_nil]
      constructor
      · intro _
        exact ⟨hpos, Or.inl trivial⟩
      · intro _
        exact trivial
    · constructor
      · intro hall
        refine ⟨hpos, Or.inr ?_⟩
        have h0 := List.all_eq_true.mp hall 0 (List.mem_range.mpr hopos)
        by_contra hlt
        have hpl : operations / phases = 0 :=
          Nat.div_eq_of_lt (by omega)
        rw [hpl] at h0
        simp at h0
      · rintro ⟨-, hge⟩
        have hple : 1 ≤ operations / phases := by
          rcases hge with h0 | hge
          · omega
          · exact Nat.one_le_div_iff hpos |>.mpr hge
        have hpl : ¬ operations / phases = 0 := by omega
        rw [List.all_eq_true]
        intro op _
        simp [hpl]

/-! ### Spec-modelled cache policies

The policy implementations (KLruCache.h, KLfuCache.h, KArcCache.h) are not
part of src/; the models below are built from the specification: LRU from
section 4.3, LFU from section 4.6, ARC from sections 4.8.1-4.8.2, with the
common capacity-0 no-op rule of section 4.1.  Keys are `Nat` and values
`String`, matching the driver's instantiation `<int, std::string>`. -/

/-- Membership test of a key in an association list. -/
def hasKey {β : Type} (k : Nat) (l : List (Nat × β)) : Bool :=
  l.any (fun e => e.1 == k)

/-- Removal of a key from an association list. -/
def eraseKey {β : Type} (k : Nat) (l : List (Nat × β)) : List (Nat × β) :=
  l.filter (fun e => e.1 != k)

theorem eraseKey_length_le {β : Type} (k : Nat) (l : List (Nat × β)) :
    (eraseKey k l).length ≤ l.length :=
  List.length_filter_le _ _

theorem eraseKey_length_lt {β : Type} (k : Nat) (l : List (Nat × β))
    (h : hasKey k l = true) : (eraseKey k l).length < l.length := by
  induction l with
  | nil => simp [hasKey] at h
  | cons e t ih =>
    unfold eraseKey at ih ⊢
    by_cases hk : e.1 = k
    · have hp : (e.1 != k) = false := by simp [hk]
      rw [List.filter_cons, hp]
      simp only [Bool.false_eq_true, if_false, List.length_cons]
      have := List.length_filter_le (fun e2 => e2.1 != k) t
      omega
    · have hp : (e.1 != k) = true := by simp [hk]
      rw [List.filter_cons, hp]
      simp only [if_true, List.length_cons]
      have ht : hasKey k t = true := by
        unfold hasKey at h ⊢
        simp only [List.any_cons] at h
        have he : (e.1 == k) = false := by simp [hk]
        rw [he] at h
        simpa using h
      have := ih ht
      omega

theorem find?_hasKey {β : Type} {k : Nat} {l : List (Nat × β)} {e : Nat × β}
    (h : l.find? (fun x => x.1 == k) = some e) : hasKey k l = true := by
  unfold hasKey
  rw [List.any_eq_true]
  have hp := List.find?_some h
  exact ⟨e, List.mem_of_find?_eq_some h, hp⟩

/-! #### LRU core (spec section 4.3) -/

/-- Modelled from the spec: the state of an LRU core (section 4.3) — one
recency list (head = LRU end, tail = MRU end) and a capacity.  The index is
implicit: the association list plays both roles. -/
structure LruState where
  entries : List (Nat × String)
  cap : Nat
deriving DecidableEq, Repr

/-- Modelled from the spec: `new_lru(capacity)` (section 6). -/
def lruNew (c : Nat) : LruState := ⟨[], c⟩

/-- Modelled from the spec: LRU `put` (section 4.3) with the capacity-0 no-op
rule of section 4.1.  On a hit, overwrite and move to MRU; on a miss with a
full list, pop the LRU head before appending at the MRU tail. -/
def lruPut (k : Nat) (v : String) (s : LruState) : LruState :=
  if s.cap = 0 then s
  else if hasKey k s.entries = true then
    { s with entries := eraseKey k s.entries ++ [(k, v)] }
  else if s.entries.length = s.cap then
    { s with entries := s.entries.tail ++ [(k, v)] }
  else
    { s with entries := s.entries ++ [(k, v)] }

/-- Modelled from the spec: LRU `get` (section 4.3): on a hit, move the node
to the MRU end and return its value. -/
def lruGet (k : Nat) (s : LruState) : Option String × LruState :=
  match s.entries.find? (fun e => e.1 == k) with
  | none => (none, s)
  | some e => (some e.2, { s with entries := eraseKey k s.entries ++ [(k, e.2)] })

theorem lruPut_cap (k : Nat) (v : String) (s : LruState) :
    (lruPut k v s).cap = s.cap := by
  unfold lruPut
  split_ifs <;> rfl

theorem lruGet_cap (k : Nat) (s : LruState) : ((lruGet k s).2).cap = s.cap := by
  unfold lruGet
  cases s.entries.find? (fun e => e.1 == k) <;> rfl

theorem lruPut_len (k : Nat) (v : String) (s : LruState)
    (h : s.entries.length ≤ s.cap) : (lruPut k v s).entries.length ≤ s.cap := by
  unfold lruPut
  split_ifs with h0 h1 h2
  · exact h
  · rw [List.length_append]
    have := eraseKey_length_lt k s.entries h1
    simp only [List.length_singleton]
    omega
  · rw [List.length_append, List.length_tail]
    simp only [List.length_singleton]
    omega
  · rw [List.length_append]
    simp only [List.length_singleton]
    omega

theorem lruGet_len (k : Nat) (s : LruState)
    (h : s.entries.length ≤ s.cap) : ((lruGet k s).2).entries.length ≤ s.cap := by
  unfold lruGet
  cases hf : s.entries.find? (fun e => e.1 == k) with
  | none => exact h
  | some e =>
    simp only
    rw [List.length_append]
    have := eraseKey_length_lt k s.entries (find?_hasKey hf)
    simp only [List.length_singleton]
    omega

/-! #### LFU core (spec section 4.6) -/

/-- Modelled from the spec: the state of an LFU core (section 4.6).  Each
entry is `(key, value, access count)`.  The frequency structure `F` is
represented positionally: the entries of one frequency bucket appear in the
flat list in their bucket order (head side = oldest arrival into the bucket),
because every insertion into a bucket appends at the overall tail.
`min_freq` and `total_freq` are computed from the entries. -/
structure LfuState where
  entries : List (Nat × String × Nat)
  cap : Nat
  maxAvg : Nat
deriving DecidableEq, Repr

/-- Modelled from the spec: `new_lfu(capacity, max_avg_freq = 0)` (section 6);
`max_avg_freq = 0` disables decay. -/
def lfuNew (c : Nat) : LfuState := ⟨[], c, 0⟩

/-- Access count of an entry. -/
def freqOf (e : Nat × String × Nat) : Nat := e.2.2

/-- Modelled from the spec: `min_freq`, the smallest access count present
(section 4.6); 0 when the cache is empty (where the spec leaves it
undefined). -/
def lfuMinFreq (l : List (Nat × String × Nat)) : Nat :=
  match l with
  | [] => 0
  | e :: rest => (rest.map freqOf).foldl min (freqOf e)

/-- Modelled from the spec: eviction removes the head of bucket `min_freq`
(section 4.6), i.e. the first listed entry whose count is minimal. -/
def lfuEvictOne (l : List (Nat × String × Nat)) : List (Nat × String × Nat) :=
  l.eraseP (fun e => freqOf e == lfuMinFreq l)

/-- Modelled from the spec: `total_freq = Σ counts` (section 4.6). -/
def lfuTotalFreq (l : List (Nat × String × Nat)) : Nat :=
  (l.map freqOf).sum

/-- Modelled from the spec: the decay step (section 4.6) — when
`max_avg_freq > 0` and `total_freq / |I| > max_avg_freq`, halve every count
(floor, minimum 1).  The cache is non-empty whenever this is triggered (it
runs on a `get` hit); the emptiness guard only protects the model's
division. -/
def lfuDecay (s : LfuState) : LfuState :=
  if s.maxAvg ≠ 0 ∧ s.entries.length ≠ 0 ∧
      s.maxAvg < lfuTotalFreq s.entries / s.entries.length then
    { s with entries := s.entries.map (fun e => (e.1, e.2.1, max 1 (e.2.2 / 2))) }
  else s

/-- Modelled from the spec: LFU `put` (section 4.6) with the capacity-0 no-op
rule of section 4.1.  A hit overwrites and performs the bucket promotion
(count + 1, append to the new bucket's tail); a miss on a full cache first
evicts the head of bucket `min_freq`, then inserts with count 1. -/
def lfuPut (k : Nat) (v : String) (s : LfuState) : LfuState :=
  if s.cap = 0 then s
  else
    match s.entries.find? (fun e => e.1 == k) with
    | some e => { s with entries := eraseKey k s.entries ++ [(k, v, e.2.2 + 1)] }
    | none =>
      if s.entries.length = s.cap then
        { s with entries := lfuEvictOne s.entries ++ [(k, v, 1)] }
      else
        { s with entries := s.entries ++ [(k, v, 1)] }

/-- Modelled from the spec: LFU `get` (section 4.6): a hit promotes the entry
(count + 1, append to the new bucket's tail), returns the value, and then
runs the decay check. -/
def lfuGet (k : Nat) (s : LfuState) : Option String × LfuState :=
  match s.entries.find? (fun e => e.1 == k) with
  | none => (none, s)
  | some e =>
    (some e.2.1,
      lfuDecay { s with entries := eraseKey k s.entries ++ [(k, e.2.1, e.2.2 + 1)] })

theorem foldl_min_mem (a : Nat) (l : List Nat) :
    l.foldl min a = a ∨ l.foldl min a ∈ l := by
  induction l generalizing a with
  | nil => exact Or.inl rfl
  | cons b t ih =>
    rcases ih (min a b) with h | h
    · rcases Nat.le_total a b with hab | hab
      · left
        rw [List.foldl_cons, h, Nat.min_eq_left hab]
      · right
        rw [List.foldl_cons, h, Nat.min_eq_right hab]
        exact List.mem_cons_self b t
    · right
      rw [List.foldl_cons]
      exact List.mem_cons_of_mem b h

theorem lfuMinFreq_attained (l : List (Nat × String × Nat)) (h : l ≠ []) :
    ∃ e ∈ l, freqOf e = lfuMinFreq l := by
  cases l with
  | nil => exact absurd rfl h
  | cons a rest =>
    unfold lfuMinFreq
    rcases foldl_min_mem (freqOf a) (rest.map freqOf) with h1 | h1
    · exact ⟨a, List.mem_cons_self a rest, h1.symm⟩
    · rw [List.mem_map] at h1
      obtain ⟨e, he, hfe⟩ := h1
      exact ⟨e, List.mem_cons_of_mem a he, hfe⟩

theorem lfuEvictOne_length (l : List (Nat × String × Nat)) (h : l ≠ []) :
    (lfuEvictOne l).length + 1 = l.length := by
  obtain ⟨e, he, hfe⟩ := lfuMinFreq_attained l h
  unfold lfuEvictOne
  exact List.length_eraseP_add_one he (by simp [hfe])

theorem lfuDecay_shape (s : LfuState) : (lfuDecay s).entries.length = s.entries.length ∧
    (lfuDecay s).cap = s.cap := by
  unfold lfuDecay
  split_ifs
  · exact ⟨List.length_map _ _, rfl⟩
  · exact ⟨rfl, rfl⟩

theorem lfuPut_cap (k : Nat) (v : String) (s : LfuState) :
    (lfuPut k v s).cap = s.cap := by
  unfold lfuPut
  by_cases h0 : s.cap = 0
  · rw [if_pos h0]
  · rw [if_neg h0]
    cases hf : s.entries.find? (fun e => e.1 == k) with
    | some e => rfl
    | none =>
      simp only
      by_cases h1 : s.entries.length = s.cap
      · rw [if_pos h1]
      · rw [if_neg h1]

theorem lfuGet_cap (k : Nat) (s : LfuState) : ((lfuGet k s).2).cap = s.cap := by
  unfold lfuGet
  cases s.entries.find? (fun e => e.1 == k) with
  | none => rfl
  | some e => exact (lfuDecay_shape _).2

theorem lfuPut_len (k : Nat) (v : String) (s : LfuState)
    (h : s.entries.length ≤ s.cap) : (lfuPut k v s).entries.length ≤ s.cap := by
  unfold lfuPut
  by_cases h0 : s.cap = 0
  · rw [if_pos h0]
    exact h
  · rw [if_neg h0]
    cases hf : s.entries.find? (fun e => e.1 == k) with
    | some e =>
      simp only
      rw [List.length_append]
      have := eraseKey_length_lt k s.entries (find?_hasKey hf)
      simp only [List.length_singleton]
      omega
    | none =>
      simp only
      by_cases h1 : s.entries.length = s.cap
      · rw [if_pos h1, List.length_append]
        have hne : s.entries ≠ [] := by
          intro hnil
          rw [hnil] at h1
          simp at h1
          omega
        have := lfuEvictOne_length s.entries hne
        simp only [List.length_singleton]
        omega
      · rw [if_neg h1, List.length_append]
        simp only [List.length_singleton]
        omega

theorem lfuGet_len (k : Nat) (s : LfuState)
    (h : s.entries.length ≤ s.cap) : ((lfuGet k s).2).entries.length ≤ s.cap := by
  unfold lfuGet
  cases hf : s.entries.find? (fun e => e.1 == k) with
  | none => exact h
  | some e =>
    simp only
    rw [(lfuDecay_shape _).1]
    rw [List.length_append]
    have := eraseKey_length_lt k s.entries (find?_hasKey hf)
    simp only [List.length_singleton]
    omega

/-! #### ARC core (spec sections 4.8.1, 4.8.2) -/

/-- Modelled from the spec: the ARC state (section 3) — resident lists `T1`,
`T2` (with values), ghost lists `B1`, `B2` (keys only), the adaptive target
`p` and the capacity `c`. -/
structure ArcState where
  t1 : List (Nat × String)
  t2 : List (Nat × String)
  b1 : List Nat
  b2 : List Nat
  p : Nat
  cap : Nat
deriving DecidableEq, Repr

/-- Modelled from the spec: `new_arc(capacity)` (section 6), `p` initially 0
(section 4.8). -/
def arcNew (c : Nat) : ArcState := ⟨[], [], [], [], 0, c⟩

/-- Modelled from the spec: `REPLACE(k, p)` (section 4.8.2).  If `|T1| > 0`
and (`|T1| > p`, or the requested key was a `B2` hit and `|T1| == p`), the LRU
of `T1` moves to the MRU of `B1` (key only); otherwise the LRU of `T2` moves
to the MRU of `B2`. -/
def arcReplace (inB2 : Bool) (s : ArcState) : ArcState :=
  if 0 < s.t1.length ∧ (s.p < s.t1.length ∨ (inB2 = true ∧ s.t1.length = s.p)) then
    match s.t1 with
    | [] => s
    | e :: rest => { s with t1 := rest, b1 := s.b1 ++ [e.1] }
  else
    match s.t2 with
    | [] => s
    | e :: rest => { s with t2 := rest, b2 := s.b2 ++ [e.1] }

/-- Number of resident entries of an ARC state (glossary: `T1` and `T2`). -/
def arcResident (s : ArcState) : Nat := s.t1.length + s.t2.length

/-- Modelled from the spec: the Case II adaptation (section 4.8.1),
`p ← min(c, p + max(1, |B2| / |B1|))`. -/
def arcAdaptUp (s : ArcState) : ArcState :=
  { s with p := min s.cap (s.p + max 1 (s.b2.length / s.b1.length)) }

/-- Modelled from the spec: the Case III adaptation (section 4.8.1),
`p ← max(0, p − max(1, |B1| / |B2|))` (truncated subtraction on `Nat`). -/
def arcAdaptDown (s : ArcState) : ArcState :=
  { s with p := s.p - max 1 (s.b1.length / s.b2.length) }

/-- Modelled from the spec: the tail of Case II / Case III (section 4.8.1):
remove the key from its ghost list and insert the new node at the MRU of
`T2`. -/
def arcFromGhost (k : Nat) (v : String) (fromB2 : Bool) (s2 : ArcState) : ArcState :=
  if fromB2 then { s2 with b2 := s2.b2.erase k, t2 := s2.t2 ++ [(k, v)] }
  else { s2 with b1 := s2.b1.erase k, t2 := s2.t2 ++ [(k, v)] }

/-- Modelled from the spec: the final step of Case IV (section 4.8.1): insert
the new node at the MRU of `T1`. -/
def arcInsertT1 (k : Nat) (v : String) (s2 : ArcState) : ArcState :=
  { s2 with t1 := s2.t1 ++ [(k, v)] }

/-- Modelled from the spec: in Case IV, when the four lists total `2c`, the
LRU of `B2` is deleted (section 4.8.1). -/
def arcMaybeTrimB2 (s : ArcState) : ArcState :=
  if s.t1.length + s.t2.length + s.b1.length + s.b2.length = 2 * s.cap then
    { s with b2 := s.b2.tail }
  else s

/-- Modelled from the spec: ARC `put(k, v)` (section 4.8.1), four cases in
order, with the capacity-0 no-op rule of section 4.1.  Case I: hit in
`T1 ∪ T2` — move to MRU of `T2` and overwrite.  Case II/III: ghost hit —
adapt `p`, `REPLACE`, move the key from the ghost list into `T2`.  Case IV:
full miss — evict per the spec's size conditions and insert at MRU of
`T1`. -/
def arcPut (k : Nat) (v : String) (s : ArcState) : ArcState :=
  if s.cap = 0 then s
  else if hasKey k s.t1 = true ∨ hasKey k s.t2 = true then
    { s with t1 := eraseKey k s.t1, t2 := eraseKey k s.t2 ++ [(k, v)] }
  else if k ∈ s.b1 then
    arcFromGhost k v false (arcReplace false (arcAdaptUp s))
  else if k ∈ s.b2 then
    arcFromGhost k v true (arcReplace true (arcAdaptDown s))
  else if s.t1.length + s.b1.length = s.cap then
    if s.t1.length < s.cap then
      arcInsertT1 k v (arcReplace false { s with b1 := s.b1.tail })
    else
      { s with t1 := s.t1.tail ++ [(k, v)] }
  else if s.t1.length + s.b1.length < s.cap ∧
      s.cap ≤ s.t1.length + s.t2.length + s.b1.length + s.b2.length then
    arcInsertT1 k v (arcReplace false (arcMaybeTrimB2 s))
  else
    { s with t1 := s.t1 ++ [(k, v)] }

/-- Modelled from the spec: ARC `get(k)` (sections 4.8.1 and 9): a hit in
`T1 ∪ T2` promotes the node to the MRU of `T2` and returns its value; a ghost
hit applies the adaptation and reports a miss; otherwise a plain miss. -/
def arcGet (k : Nat) (s : ArcState) : Option String × ArcState :=
  match s.t1.find? (fun e => e.1 == k) with
  | some e => (some e.2, { s with t1 := eraseKey k s.t1, t2 := eraseKey k s.t2 ++ [(k, e.2)] })
  | none =>
    match s.t2.find? (fun e => e.1 == k) with
    | some e => (some e.2, { s with t1 := eraseKey k s.t1, t2 := eraseKey k s.t2 ++ [(k, e.2)] })
    | none =>
      if k ∈ s.b1 then (none, arcAdaptUp s)
      else if k ∈ s.b2 then (none, arcAdaptDown s)
      else (none, s)

/-- The ARC size invariant needed for the capacity bound: residents fit in
`c`, `|T1| + |B1| ≤ c` (spec section 3), and `p ≤ c` (spec section 4.8). -/
def ArcInv (s : ArcState) : Prop :=
  s.t1.length + s.t2.length ≤ s.cap ∧ s.t1.length + s.b1.length ≤ s.cap ∧
    s.p ≤ s.cap

theorem arcReplace_cap_p (b : Bool) (s : ArcState) :
    (arcReplace b s).cap = s.cap ∧ (arcReplace b s).p = s.p := by
  unfold arcReplace
  split_ifs with h
  · cases ht : s.t1 with
    | nil => exact ⟨rfl, rfl⟩
    | cons e rest => exact ⟨rfl, rfl⟩
  · cases ht : s.t2 with
    | nil => exact ⟨rfl, rfl⟩
    | cons e rest => exact ⟨rfl, rfl⟩

theorem arcReplace_t1b1 (b : Bool) (s : ArcState) :
    (arcReplace b s).t1.length + (arcReplace b s).b1.length =
      s.t1.length + s.b1.length := by
  unfold arcReplace
  split_ifs with h
  · cases ht : s.t1 with
    | nil =>
      rw [ht] at h
      simp at h
    | cons e rest =>
      show rest.length + (s.b1 ++ [e.1]).length = (e :: rest).length + s.b1.length
      simp only [List.length_cons, List.length_append, List.length_nil]
      omega
  · cases ht : s.t2 with
    | nil => rfl
    | cons e rest => rfl

theorem arcReplace_resident_le (b : Bool) (s : ArcState) :
    arcResident (arcReplace b s) ≤ arcResident s := by
  unfold arcResident arcReplace
  split_ifs with h
  · cases ht : s.t1 with
    | nil =>
      rw [ht] at h
      simp at h
    | cons e rest =>
      show rest.length + s.t2.length ≤ (e :: rest).length + s.t2.length
      simp only [List.length_cons]
      omega
  · cases ht : s.t2 with
    | nil =>
      show s.t1.length + s.t2.length ≤ s.t1.length + ([] : List (Nat × String)).length
      rw [ht]
    | cons e rest =>
      show s.t1.length + rest.length ≤ s.t1.length + (e :: rest).length
      simp only [List.length_cons]
      omega

theorem arcReplace_resident_drop (b : Bool) (s : ArcState)
    (h : s.t2 ≠ [] ∨
      (0 < s.t1.length ∧ (s.p < s.t1.length ∨ (b = true ∧ s.t1.length = s.p)))) :
    arcResident (arcReplace b s) + 1 = arcResident s := by
  unfold arcResident arcReplace
  split_ifs with hc
  · cases ht : s.t1 with
    | nil =>
      rw [ht] at hc
      simp at hc
    | cons e rest =>
      show rest.length + s.t2.length + 1 = (e :: rest).length + s.t2.length
      simp only [List.length_cons]
      omega
  · have ht2 : s.t2 ≠ [] := by
      rcases h with h | h
      · exact h
      · exact absurd h hc
    cases ht : s.t2 with
    | nil => exact absurd ht ht2
    | cons e rest =>
      show s.t1.length + rest.length + 1 = s.t1.length + (e :: rest).length
      simp only [List.length_cons]
      omega

theorem arcFromGhost_shape (k : Nat) (v : String) (b : Bool) (s2 : ArcState) :
    (arcFromGhost k v b s2).t1 = s2.t1 ∧
    (arcFromGhost k v b s2).t2.length = s2.t2.length + 1 ∧
    (arcFromGhost k v b s2).b1.length ≤ s2.b1.length ∧
    (arcFromGhost k v b s2).cap = s2.cap ∧
    (arcFromGhost k v b s2).p = s2.p := by
  unfold arcFromGhost
  split_ifs
  · refine ⟨rfl, ?_, Nat.le_refl _, rfl, rfl⟩
    rw [List.length_append]
    rfl
  · refine ⟨rfl, ?_, (List.erase_sublist _ _).length_le, rfl, rfl⟩
    rw [List.length_append]
    rfl

theorem arcMaybeTrimB2_shape (s : ArcState) :
    (arcMaybeTrimB2 s).t1 = s.t1 ∧ (arcMaybeTrimB2 s).t2 = s.t2 ∧
    (arcMaybeTrimB2 s).b1 = s.b1 ∧ (arcMaybeTrimB2 s).cap = s.cap ∧
    (arcMaybeTrimB2 s).p = s.p := by
  unfold arcMaybeTrimB2
  split_ifs
  · exact ⟨rfl, rfl, rfl, rfl, rfl⟩
  · exact ⟨rfl, rfl, rfl, rfl, rfl⟩

theorem arcGhostStep_inv (k : Nat) (v : String) (b : Bool) (u : ArcState)
    (hp : u.p ≤ u.cap) (h1 : arcResident u ≤ u.cap)
    (h2 : u.t1.length + u.b1.length ≤ u.cap)
    (hsafe : arcResident u < u.cap ∨ u.t2 ≠ [] ∨
      (0 < u.t1.length ∧ (u.p < u.t1.length ∨ (b = true ∧ u.t1.length = u.p)))) :
    ArcInv (arcFromGhost k v b (arcReplace b u)) := by
  obtain ⟨hcx, hpx⟩ := arcReplace_cap_p b u
  have ht1b1 := arcReplace_t1b1 b u
  obtain ⟨g1, g2, g3, g4, g5⟩ := arcFromGhost_shape k v b (arcReplace b u)
  have hres : arcResident (arcReplace b u) + 1 ≤ u.cap := by
    rcases hsafe with hlt | hdrop
    · have := arcReplace_resident_le b u
      omega
    · have := arcReplace_resident_drop b u hdrop
      omega
  unfold arcResident at hres
  unfold ArcInv
  refine ⟨?_, ?_, ?_⟩
  · rw [g1, g2, g4, hcx]
    omega
  · rw [g1, g4, hcx]
    omega
  · rw [g5, g4, hpx, hcx]
    exact hp

theorem arcInsertT1_inv (k : Nat) (v : String) (b : Bool) (u : ArcState)
    (hp : u.p ≤ u.cap) (h1 : arcResident u ≤ u.cap)
    (h2 : u.t1.length + u.b1.length + 1 ≤ u.cap)
    (hsafe : arcResident u < u.cap ∨ u.t2 ≠ [] ∨
      (0 < u.t1.length ∧ (u.p < u.t1.length ∨ (b = true ∧ u.t1.length = u.p)))) :
    ArcInv (arcInsertT1 k v (arcReplace b u)) := by
  obtain ⟨hcx, hpx⟩ := arcReplace_cap_p b u
  have ht1b1 := arcReplace_t1b1 b u
  have hres : arcResident (arcReplace b u) + 1 ≤ u.cap := by
    rcases hsafe with hlt | hdrop
    · have := arcReplace_resident_le b u
      omega
    · have := arcReplace_resident_drop b u hdrop
      omega
  unfold arcResident at hres
  unfold ArcInv arcInsertT1
  dsimp only
  rw [List.length_append, hcx]
  simp only [List.length_singleton]
  refine ⟨by omega, by omega, ?_⟩
  rw [hpx]
  exact hp

theorem arcPut_cap (k : Nat) (v : String) (s : ArcState) :
    (arcPut k v s).cap = s.cap := by
  unfold arcPut
  by_cases h0 : s.cap = 0
  · rw [if_pos h0]
  rw [if_neg h0]
  by_cases hhit : hasKey k s.t1 = true ∨ hasKey k s.t2 = true
  · rw [if_pos hhit]
  rw [if_neg hhit]
  by_cases hb1 : k ∈ s.b1
  · rw [if_pos hb1]
    obtain ⟨-, -, -, g4, -⟩ := arcFromGhost_shape k v false (arcReplace false (arcAdaptUp s))
    rw [g4, (arcReplace_cap_p false (arcAdaptUp s)).1]
    rfl
  rw [if_neg hb1]
  by_cases hb2 : k ∈ s.b2
  · rw [if_pos hb2]
    obtain ⟨-, -, -, g4, -⟩ := arcFromGhost_shape k v true (arcReplace true (arcAdaptDown s))
    rw [g4, (arcReplace_cap_p true (arcAdaptDown s)).1]
    rfl
  rw [if_neg hb2]
  by_cases h4 : s.t1.length + s.b1.length = s.cap
  · rw [if_pos h4]
    by_cases h5 : s.t1.length < s.cap
    · rw [if_pos h5]
      unfold arcInsertT1
      dsimp only
      rw [(arcReplace_cap_p false _).1]
    · rw [if_neg h5]
  rw [if_neg h4]
  by_cases h6 : s.t1.length + s.b1.length < s.cap ∧
      s.cap ≤ s.t1.length + s.t2.length + s.b1.length + s.b2.length
  · rw [if_pos h6]
    unfold arcInsertT1
    dsimp only
    rw [(arcReplace_cap_p false _).1, (arcMaybeTrimB2_shape s).2.2.2.1]
  · rw [if_neg h6]

theorem arcPut_inv (k : Nat) (v : String) (s : ArcState) (h : ArcInv s) :
    ArcInv (arcPut k v s) := by
  obtain ⟨h1, h2, h3⟩ := h
  unfold arcPut
  by_cases h0 : s.cap = 0
  · rw [if_pos h0]
    exact ⟨h1, h2, h3⟩
  rw [if_neg h0]
  by_cases hhit : hasKey k s.t1 = true ∨ hasKey k s.t2 = true
  · rw [if_pos hhit]
    have e1 := eraseKey_length_le k s.t1
    have e2 := eraseKey_length_le k s.t2
    unfold ArcInv
    dsimp only
    rw [List.length_append]
    simp only [List.length_singleton]
    rcases hhit with hk | hk
    · have := eraseKey_length_lt k s.t1 hk
      exact ⟨by omega, by omega, h3⟩
    · have := eraseKey_length_lt k s.t2 hk
      exact ⟨by omega, by omega, h3⟩
  rw [if_neg hhit]
  by_cases hb1 : k ∈ s.b1
  · rw [if_pos hb1]
    apply arcGhostStep_inv k v false (arcAdaptUp s)
    · exact Nat.min_le_left _ _
    · exact h1
    · exact h2
    · by_cases ht2 : s.t2 = []
      · left
        show s.t1.length + s.t2.length < s.cap
        have hb1ne : s.b1 ≠ [] := List.ne_nil_of_mem hb1
        have hb1pos : 0 < s.b1.length := List.length_pos.mpr hb1ne
        rw [ht2]
        simp only [List.length_nil]
        omega
      · right
        left
        exact ht2
  rw [if_neg hb1]
  by_cases hb2 : k ∈ s.b2
  · rw [if_pos hb2]
    apply arcGhostStep_inv k v true (arcAdaptDown s)
    · show s.p - max 1 (s.b1.length / s.b2.length) ≤ s.cap
      omega
    · exact h1
    · exact h2
    · by_cases ht2 : s.t2 = []
      · by_cases hres : s.t1.length + s.t2.length < s.cap
        · left
          exact hres
        · right
          right
          have hmax : 1 ≤ max 1 (s.b1.length / s.b2.length) := le_max_left 1 _
          have ht1len : s.cap ≤ s.t1.length := by
            rw [ht2] at hres
            simp only [List.length_nil] at hres
            omega
          refine ⟨?_, Or.inl ?_⟩
          · show 0 < s.t1.length
            omega
          · show s.p - max 1 (s.b1.length / s.b2.length) < s.t1.length
            omega
      · right
        left
        exact ht2
  rw [if_neg hb2]
  by_cases h4 : s.t1.length + s.b1.length = s.cap
  · rw [if_pos h4]
    by_cases h5 : s.t1.length < s.cap
    · rw [if_pos h5]
      apply arcInsertT1_inv k v false
      · exact h3
      · exact h1
      · show s.t1.length + s.b1.tail.length + 1 ≤ s.cap
        rw [List.length_tail]
        omega
      · by_cases ht2 : s.t2 = []
        · left
          show s.t1.length + s.t2.length < s.cap
          rw [ht2]
          simp only [List.length_nil]
          omega
        · right
          left
          exact ht2
    · rw [if_neg h5]
      have ht1 : s.t1.length = s.cap := by omega
      have ht2z : s.t2.length = 0 := by omega
      unfold ArcInv
      dsimp only
      rw [List.length_append, List.length_tail]
      simp only [List.length_singleton]
      refine ⟨by omega, by omega, h3⟩
  rw [if_neg h4]
  by_cases h6 : s.t1.length + s.b1.length < s.cap ∧
      s.cap ≤ s.t1.length + s.t2.length + s.b1.length + s.b2.length
  · rw [if_pos h6]
    obtain ⟨m1, m2, m3, m4, m5⟩ := arcMaybeTrimB2_shape s
    apply arcInsertT1_inv k v false
    · rw [m5, m4]
      exact h3
    · show (arcMaybeTrimB2 s).t1.length + (arcMaybeTrimB2 s).t2.length ≤
        (arcMaybeTrimB2 s).cap
      rw [m1, m2, m4]
      exact h1
    · rw [m1, m3, m4]
      omega
    · by_cases ht2 : s.t2 = []
      · left
        show (arcMaybeTrimB2 s).t1.length + (arcMaybeTrimB2 s).t2.length <
          (arcMaybeTrimB2 s).cap
        rw [m1, m2, m4, ht2]
        simp only [List.length_nil]
        omega
      · right
        left
        rw [m2]
        exact ht2
  · rw [if_neg h6]
    have htot : s.t1.length + s.t2.length + s.b1.length + s.b2.length < s.cap := by
      rcases not_and_or.mp h6 with hx | hx
      · omega
      · omega
    unfold ArcInv
    dsimp only
    rw [List.length_append]
    simp only [List.length_singleton]
    exact ⟨by omega, by omega, h3⟩

theorem arcGet_inv (k : Nat) (s : ArcState) (h : ArcInv s) :
    ArcInv ((arcGet k s).2) := by
  obtain ⟨h1, h2, h3⟩ := h
  unfold arcGet
  cases hf1 : s.t1.find? (fun e => e.1 == k) with
  | some e =>
    have hk := find?_hasKey hf1
    have e1 := eraseKey_length_lt k s.t1 hk
    have e2 := eraseKey_length_le k s.t2
    unfold ArcInv
    dsimp only
    rw [List.length_append]
    simp only [List.length_singleton]
    exact ⟨by omega, by omega, h3⟩
  | none =>
    cases hf2 : s.t2.find? (fun e => e.1 == k) with
    | some e =>
      have hk := find?_hasKey hf2
      have e1 := eraseKey_length_le k s.t1
      have e2 := eraseKey_length_lt k s.t2 hk
      unfold ArcInv
      dsimp only
      rw [List.length_append]
      simp only [List.length_singleton]
      exact ⟨by omega, by omega, h3⟩
    | none =>
      by_cases hb1 : k ∈ s.b1
      · rw [if_pos hb1]
        exact ⟨h1, h2, Nat.min_le_left _ _⟩
      · rw [if_neg hb1]
        by_cases hb2 : k ∈ s.b2
        · rw [if_pos hb2]
          exact ⟨h1, h2, Nat.le_trans (Nat.sub_le _ _) h3⟩
        · rw [if_neg hb2]
          exact ⟨h1, h2, h3⟩

theorem arcGet_cap (k : Nat) (s : ArcState) : ((arcGet k s).2).cap = s.cap := by
  unfold arcGet
  cases hf1 : s.t1.find? (fun e => e.1 == k) with
  | some e => rfl
  | none =>
    cases hf2 : s.t2.find? (fun e => e.1 == k) with
    | some e => rfl
    | none =>
      by_cases hb1 : k ∈ s.b1
      · rw [if_pos hb1]
        rfl
      · rw [if_neg hb1]
        by_cases hb2 : k ∈ s.b2
        · rw [if_pos hb2]
          rfl
        · rw [if_neg hb2]

/-! ### Operation sequences and the capacity bound -/

/-- One driver-visible cache operation (`put` or `get`), the interface of
spec section 4.1. -/
inductive CacheOp where
  | put (k : Nat) (v : String)
  | get (k : Nat)

/-- Apply one operation to an LRU core. -/
def lruStep (s : LruState) (o : CacheOp) : LruState :=
  match o with
  | CacheOp.put k v => lruPut k v s
  | CacheOp.get k => (lruGet k s).2

/-- Apply one operation to an LFU core. -/
def lfuStep (s : LfuState) (o : CacheOp) : LfuState :=
  match o with
  | CacheOp.put k v => lfuPut k v s
  | CacheOp.get k => (lfuGet k s).2

/-- Apply one operation to an ARC core. -/
def arcStep (s : ArcState) (o : CacheOp) : ArcState :=
  match o with
  | CacheOp.put k v => arcPut k v s
  | CacheOp.get k => (arcGet k s).2

/-- LRU core state after a sequence of operations on a fresh cache of
capacity `c`. -/
def lruRun (c : Nat) (ops : List CacheOp) : LruState :=
  ops.foldl lruStep (lruNew c)

/-- LFU core state after a sequence of operations on a fresh cache of
capacity `c` and decay threshold `m`. -/
def lfuRun (c m : Nat) (ops : List CacheOp) : LfuState :=
  ops.foldl lfuStep ⟨[], c, m⟩

/-- ARC core state after a sequence of operations on a fresh cache of
capacity `c`. -/
def arcRun (c : Nat) (ops : List CacheOp) : ArcState :=
  ops.foldl arcStep (arcNew c)

theorem lruFold_inv (ops : List CacheOp) : ∀ s : LruState,
    s.entries.length ≤ s.cap →
    (ops.foldl lruStep s).entries.length ≤ (ops.foldl lruStep s).cap ∧
      (ops.foldl lruStep s).cap = s.cap := by
  induction ops with
  | nil =>
    intro s h
    exact ⟨h, rfl⟩
  | cons o t ih =>
    intro s h
    rw [List.foldl_cons]
    have hstep : (lruStep s o).entries.length ≤ (lruStep s o).cap ∧
        (lruStep s o).cap = s.cap := by
      cases o with
      | put k v =>
        refine ⟨?_, lruPut_cap k v s⟩
        show (lruPut k v s).entries.length ≤ (lruPut k v s).cap
        rw [lruPut_cap]
        exact lruPut_len k v s h
      | get k =>
        refine ⟨?_, lruGet_cap k s⟩
        show ((lruGet k s).2).entries.length ≤ ((lruGet k s).2).cap
        rw [lruGet_cap]
        exact lruGet_len k s h
    obtain ⟨ha, hb⟩ := ih (lruStep s o) hstep.1
    refine ⟨ha, ?_⟩
    rw [hb, hstep.2]

theorem lfuFold_inv (ops : List CacheOp) : ∀ s : LfuState,
    s.entries.length ≤ s.cap →
    (ops.foldl lfuStep s).entries.length ≤ (ops.foldl lfuStep s).cap ∧
      (ops.foldl lfuStep s).cap = s.cap := by
  induction ops with
  | nil =>
    intro s h
    exact ⟨h, rfl⟩
  | cons o t ih =>
    intro s h
    rw [List.foldl_cons]
    have hstep : (lfuStep s o).entries.length ≤ (lfuStep s o).cap ∧
        (lfuStep s o).cap = s.cap := by
      cases o with
      | put k v =>
        refine ⟨?_, lfuPut_cap k v s⟩
        show (lfuPut k v s).entries.length ≤ (lfuPut k v s).cap
        rw [lfuPut_cap]
        exact lfuPut_len k v s h
      | get k =>
        refine ⟨?_, lfuGet_cap k s⟩
        show ((lfuGet k s).2).entries.length ≤ ((lfuGet k s).2).cap
        rw [lfuGet_cap]
        exact lfuGet_len k s h
    obtain ⟨ha, hb⟩ := ih (lfuStep s o) hstep.1
    refine ⟨ha, ?_⟩
    rw [hb, hstep.2]

theorem arcFold_inv (ops : List CacheOp) : ∀ s : ArcState,
    ArcInv s →
    ArcInv (ops.foldl arcStep s) ∧ (ops.foldl arcStep s).cap = s.cap := by
  induction ops with
  | nil =>
    intro s h
    exact ⟨h, rfl⟩
  | cons o t ih =>
    intro s h
    rw [List.foldl_cons]
    have hstep : ArcInv (arcStep s o) ∧ (arcStep s o).cap = s.cap := by
      cases o with
      | put k v => exact ⟨arcPut_inv k v s h, arcPut_cap k v s⟩
      | get k => exact ⟨arcGet_inv k s h, arcGet_cap k s⟩
    obtain ⟨ha, hb⟩ := ih (arcStep s o) hstep.1
    refine ⟨ha, ?_⟩
    rw [hb, hstep.2]

/-- Claim C4: for each policy (LRU, LFU, ARC) with configured capacity `c`
and every sequence of put/get operations, the number of resident entries
never exceeds `c` (it holds after every prefix, since the sequence is
arbitrary).  The policies are modelled from the spec (sections 4.3, 4.6,
4.8.1-4.8.2, capacity-0 rule of 4.1); resident entries are the single list
for LRU/LFU and `T1 ∪ T2` for ARC (glossary). -/
theorem cachePolicies_capacity_bound (c m : Nat) (ops : List CacheOp) :
    (lruRun c ops).entries.length ≤ c ∧
    (lfuRun c m ops).entries.length ≤ c ∧
    arcResident (arcRun c ops) ≤ c := by
  refine ⟨?_, ?_, ?_⟩
  · obtain ⟨ha, hb⟩ := lruFold_inv ops (lruNew c) (Nat.zero_le c)
    have hc : (List.foldl lruStep (lruNew c) ops).cap = c := hb
    unfold lruRun
    exact le_trans ha (Nat.le_of_eq hc)
  · obtain ⟨ha, hb⟩ := lfuFold_inv ops ⟨[], c, m⟩ (Nat.zero_le c)
    have hc : (List.foldl lfuStep (⟨[], c, m⟩ : LfuState) ops).cap = c := hb
    unfold lfuRun
    exact le_trans ha (Nat.le_of_eq hc)
  · obtain ⟨ha, hb⟩ := arcFold_inv ops (arcNew c)
      ⟨Nat.zero_le c, Nat.zero_le c, Nat.zero_le c⟩
    have hc : (List.foldl arcStep (arcNew c) ops).cap = c := hb
    unfold arcRun arcResident
    exact le_trans ha.1 (Nat.le_of_eq hc)

/-! ### The harness's setCapacity (CacheTest, lines 95-124) -/

/-- The policy selector (`enum class CacheType`, lines 30-34). -/
inductive PolicyType where
  | lru
  | lfu
  | arc

/-- State of the `CacheTest` harness: the configured capacity and operation
count, the three cache instances, and the per-policy hit and operation
counters (lines 37-62). -/
structure HarnessState where
  capacity : Nat
  opTotal : Nat
  lruC : LruState
  lfuC : LfuState
  arcC : ArcState
  hits : PolicyType → Nat
  opCount : PolicyType → Nat

/-- Model of `CacheTest::initCaches` (lines 95-108): recreate the three cache
instances at the configured capacity and zero all six counters. -/
def initCaches (s : HarnessState) : HarnessState :=
  { s with lruC := lruNew s.capacity, lfuC := lfuNew s.capacity,
           arcC := arcNew s.capacity,
           hits := fun _ => 0, opCount := fun _ => 0 }

/-- Model of `CacheTest::setCapacity` (lines 121-124): store the new capacity,
then re-run `initCaches`. -/
def setCapacityH (c : Nat) (s : HarnessState) : HarnessState :=
  initCaches { s with capacity := c }

/-- Claim C10: `setCapacity(capacity)` recreates all three caches with the new
capacity and zeroes the hit and operation counters of all three policies; the
resulting state is fully determined by the new capacity and the configured
operation count, so no cache content or statistic recorded before the call
survives it. -/
theorem setCapacity_resets (c : Nat) (s : HarnessState) :
    setCapacityH c s =
      { capacity := c, opTotal := s.opTotal, lruC := lruNew c, lfuC := lfuNew c,
        arcC := arcNew c, hits := fun _ => 0, opCount := fun _ => 0 } ∧
    (setCapacityH c s).lruC.entries = [] ∧
    (setCapacityH c s).lfuC.entries = [] ∧
    (setCapacityH c s).arcC.t1 = [] ∧ (setCapacityH c s).arcC.t2 = [] ∧
    (setCapacityH c s).lruC.cap = c ∧ (setCapacityH c s).lfuC.cap = c ∧
    (setCapacityH c s).arcC.cap = c ∧
    (∀ t, (setCapacityH c s).hits t = 0 ∧ (setCapacityH c s).opCount t = 0) :=
  ⟨rfl, rfl, rfl, rfl, rfl, rfl, rfl, rfl, fun _ => ⟨rfl, rfl⟩⟩
